import Mathlib

/-!
Verification of the overlap/dedup analysis logic of the literature-mining
scripts: a shallow embedding in Lean 4 of the Python functions
`norm_doi`, `extract_id`, `read_jsonl`, `build_pair_table`,
`dedup_keep_smallest`, `write_query_sizes_dedup` (from
`scripts/query_analyses/analyze_overlap.py`,
`scripts/analysis/analyze_overlap.py`,
`scripts/query_analyses/analyze_dedup_abstracts.py` and
`scripts/queries/summary_refs_abs.py`), together with theorems settling
the listed claims.

Python strings are modelled as `List Char`; Python dictionaries (whose
iteration order is insertion order) as association lists; Python sets as
duplicate-free lists in iteration order.
-/

/-- Python strings, modelled as lists of characters. -/
abbrev Str := List Char

/-- Coerce a Lean string literal to the model type. -/
def chars (s : String) : Str := s.toList

/-- Python whitespace test (`str.strip` default characters, ASCII part). -/
def isWS (c : Char) : Bool :=
  c = ' ' || c = '\t' || c = '\n' || c = '\r' || c = '\x0b' || c = '\x0c'

/-- Python `str.strip()`: remove leading and trailing whitespace. -/
def pyStrip (s : Str) : Str :=
  ((s.dropWhile isWS).reverse.dropWhile isWS).reverse

/-- Python `str.lower()` (ASCII case folding, which is all the code uses). -/
def pyLower (s : Str) : Str := s.map Char.toLower

/-- Fuel-indexed helper for `pyReplace`; the fuel is an upper bound on the
number of characters still to scan, so `fuel = s.length` suffices. -/
def pyReplaceAux : Nat → Str → Str → Str → Str
  | 0, s, _, _ => s
  | _ + 1, [], _, _ => []
  | fuel + 1, c :: rest, pat, rep =>
    if pat ≠ [] ∧ pat.isPrefixOf (c :: rest) then
      rep ++ pyReplaceAux fuel ((c :: rest).drop pat.length) pat rep
    else
      c :: pyReplaceAux fuel rest pat rep

/-- Python `str.replace(pat, rep)`: replace every non-overlapping
occurrence, scanning left to right (the scripts only call it with a
non-empty pattern). -/
def pyReplace (s pat rep : Str) : Str := pyReplaceAux s.length s pat rep

/-- Python truthiness of an optional string: `None` and `""` are falsy. -/
def truthy : Option Str → Bool
  | none => false
  | some s => s ≠ []

/-- Python `a or b` on optional strings. -/
def pyOr (a b : Option Str) : Option Str := if truthy a then a else b

/-- Function `norm_doi` (analyze_overlap.py, both variants): `None` for a falsy
input, else strip, lowercase, and delete every occurrence of the two
`doi.org` URL forms. -/
def norm_doi : Option Str → Option Str
  | none => none
  | some s =>
    if s = [] then none
    else some (pyReplace (pyReplace (pyLower (pyStrip s))
      (chars ("https://doi.org/")) []) (chars ("http://doi.org/")) [])

/-! ## Records and identifier extraction -/
/-- The record fields consulted by `extract_id` in the two overlap
scripts (`rec.get` on a Python dict returns `None` for a missing key). -/
structure Record where
  doi : Option Str
  dcIdentifier : Option Str
  prismDoi : Option Str
  eid : Option Str
deriving DecidableEq

/-- Function `extract_id` of `scripts/query_analyses/analyze_overlap.py`:
`norm_doi(rec.get("doi") or rec.get("dc:identifier") or rec.get("prism:doi"))`. -/
def extract_id_qa (rec : Record) : Option Str :=
  norm_doi (pyOr (pyOr rec.doi rec.dcIdentifier) rec.prismDoi)

/-- Function `extract_id` of `scripts/analysis/analyze_overlap.py`:
`eid = rec.get("eid"); doi = norm_doi(...); return eid or doi`. -/
def extract_id_an (rec : Record) : Option Str :=
  pyOr rec.eid (norm_doi (pyOr (pyOr rec.doi rec.dcIdentifier) rec.prismDoi))

/-! ## Dict-of-sets model

A Python `dict[str, set[str]]` is an association list in insertion
order; each value list is duplicate-free (set semantics). -/
/-- Read `m[q]` with default `set()` (`defaultdict(set)` read /
`dict.get(q, set())`). -/
def lookupD (m : List (Str × List Str)) (q : Str) : List Str :=
  match m with
  | [] => []
  | p :: rest => if p.1 = q then p.2 else lookupD rest q

/-- The dict's keys, in insertion order. -/
def keysOf (m : List (Str × List Str)) : List Str := m.map (fun p => p.1)

/-- Update `q2ids[qid].add(rid)` on a `defaultdict(set)`: add `rid` to the set
at `qid`, creating the entry (at the end, preserving insertion order) if
absent. -/
def setAdd (m : List (Str × List Str)) (k v : Str) : List (Str × List Str) :=
  match m with
  | [] => [(k, [v])]
  | p :: rest =>
    if p.1 = k then (p.1, if v ∈ p.2 then p.2 else p.2 ++ [v]) :: rest
    else p :: setAdd rest k v

/-- The record-accumulation step of `load_all_records` (both overlap
variants, parameterised by the variant's `extract_id`):
`rid = extract_id(rec); if not rid: continue; q2ids[qid].add(rid)`. -/
def add_record (extract : Record → Option Str) (m : List (Str × List Str))
    (qid : Str) (rec : Record) : List (Str × List Str) :=
  match extract rec with
  | none => m
  | some rid => if rid = [] then m else setAdd m qid rid

/-! ## Deduplication (`dedup_keep_smallest`) -/
/-- Update `rid2qs[rid].append(qid)` on a `defaultdict(list)`. -/
def appendAssoc (acc : List (Str × List Str)) (k v : Str) :
    List (Str × List Str) :=
  match acc with
  | [] => [(k, [v])]
  | p :: rest =>
    if p.1 = k then (p.1, p.2 ++ [v]) :: rest else p :: appendAssoc rest k v

/-- The `rid -> queries that contain it` map built by the first loop of
`dedup_keep_smallest`. -/
def build_rid2qs (m : List (Str × List Str)) : List (Str × List Str) :=
  m.foldl (fun acc p => p.2.foldl (fun a rid => appendAssoc a rid p.1) acc) []

/-- Python `<` on strings: lexicographic comparison by code point. -/
def strLtB : Str → Str → Bool
  | [], [] => false
  | [], _ :: _ => true
  | _ :: _, [] => false
  | a :: as, b :: bs => if a = b then strLtB as bs else decide (a < b)

/-- Python `<` on the `(len(out[q]), q)` sort keys used by `min`. -/
def keyLtB (a b : Nat × Str) : Bool :=
  a.1 < b.1 || (a.1 == b.1 && strLtB a.2 b.2)

/-- Compute `min(qs, key=lambda q: (len(out[q]), q))`: first element of `qs`
attaining the minimal key, sizes read from the current `out`. -/
def pyMinQ (out : List (Str × List Str)) (qs : List Str) : Str :=
  match qs with
  | [] => []
  | x :: rest =>
    rest.foldl (fun cur y =>
      if keyLtB ((lookupD out y).length, y) ((lookupD out cur).length, cur)
      then y else cur) x

/-- Update `out[q].remove(rid)` addressed through the dict: erase `rid` from
the set stored at key `q`. -/
def removeAt : List (Str × List Str) → Str → Str → List (Str × List Str)
  | [], _, _ => []
  | p :: rest, q, rid =>
    (if p.1 = q then (p.1, p.2.erase rid) else p) :: removeAt rest q rid

/-- The inner `for q in qs` loop of `dedup_keep_smallest`:
`if q != keep and rid in out[q]: out[q].remove(rid); removed += 1`,
acting on the `(out, removed)` state. -/
def removePass (rid keep : Str) (qs : List Str)
    (s : List (Str × List Str) × Nat) : List (Str × List Str) × Nat :=
  qs.foldl (fun t q =>
    if q ≠ keep ∧ rid ∈ lookupD t.1 q then (removeAt t.1 q rid, t.2 + 1)
    else t) s

/-- The body of the `for rid, qs in rid2qs.items()` loop of
`dedup_keep_smallest`, acting on the `(out, removed)` state. -/
def dedupStep (s : List (Str × List Str) × Nat) (e : Str × List Str) :
    List (Str × List Str) × Nat :=
  if e.2.length ≤ 1 then s
  else removePass e.1 (pyMinQ s.1 e.2) e.2 s

/-- Function `dedup_keep_smallest` (identical in
`query_analyses/analyze_overlap.py` lines 133-155 and
`analyze_dedup_abstracts.py` lines 39-61): build `rid2qs`, copy the
input mapping, then for every identifier held by two or more groups keep
it in `min(qs, key=(len(out[q]), q))` and remove it from every other
holder, counting removals. -/
def dedup_keep_smallest (m : List (Str × List Str)) :
    List (Str × List Str) × Nat :=
  (build_rid2qs m).foldl dedupStep (m.map (fun p => (p.1, p.2)), 0)

/-- The labels of the groups whose set contains `rid` (in insertion
order). -/
def groupsContaining (m : List (Str × List Str)) (rid : Str) : List Str :=
  (m.filter (fun p => decide (rid ∈ p.2))).map (fun p => p.1)

/-- Test whether `rid` is in some group of `m`. -/
def memAny (rid : Str) (m : List (Str × List Str)) : Bool :=
  m.any (fun p => decide (rid ∈ p.2))

/-- Well-formedness of a loaded `dict[str, set[str]]`: distinct keys,
duplicate-free sets. -/
def WF (m : List (Str × List Str)) : Prop :=
  (keysOf m).Nodup ∧ ∀ p ∈ m, p.2.Nodup

/-! ## Pairwise overlap table (`build_pair_table`) -/
/-- The integer nearest to `s` (Python `round`: round half to even),
written with the computable `Rat.floor`. -/
def pyRoundInt (s : ℚ) : ℤ :=
  if s - Rat.floor s < 1 / 2 then Rat.floor s
  else if 1 / 2 < s - Rat.floor s then Rat.floor s + 1
  else if Rat.floor s % 2 = 0 then Rat.floor s else Rat.floor s + 1

/-- Python `round(x, 6)` on the exact rational value: scale by `10^6`,
round half to even, scale back. -/
def pyRound6 (q : ℚ) : ℚ := (pyRoundInt (q * 1000000) : ℚ) / 1000000

/-- Intersection `set_a & set_b` of the loaded sets, as a list. -/
def interList (a b : List Str) : List Str :=
  a.filter (fun x => decide (x ∈ b))

/-- Union `set_a | set_b` of the loaded sets, as a list. -/
def unionList (a b : List Str) : List Str :=
  a ++ b.filter (fun x => decide (x ∉ a))

/-- One row of the pairwise overlap table. -/
structure PairRow where
  query_a : Str
  size_a : Nat
  query_b : Str
  size_b : Nat
  overlap : Nat
  union : Nat
  jaccard : ℚ
  overlap_pct_of_a : ℚ
  overlap_pct_of_b : ℚ

/-- The row appended by `build_pair_table` for the pair `(a, b)`
(both variants, lines 84-107 resp. 72-89). -/
def mkPairRow (m : List (Str × List Str)) (a b : Str) : PairRow :=
  let sa := lookupD m a
  let sb := lookupD m b
  let inter := (interList sa sb).length
  let uni := (unionList sa sb).length
  let jacc : ℚ := if uni ≠ 0 then (inter : ℚ) / (uni : ℚ) else 0
  { query_a := a
    size_a := sa.length
    query_b := b
    size_b := sb.length
    overlap := inter
    union := uni
    jaccard := pyRound6 jacc
    overlap_pct_of_a :=
      if sa ≠ [] then pyRound6 ((inter : ℚ) / (sa.length : ℚ)) else 0
    overlap_pct_of_b :=
      if sb ≠ [] then pyRound6 ((inter : ℚ) / (sb.length : ℚ)) else 0 }

/-- Insert into a `≤`-sorted list, after existing equal keys (the
stable position Python's `sorted` gives). -/
def insertSorted (x : Str) : List Str → List Str
  | [] => [x]
  | y :: ys => if !strLtB x y then y :: insertSorted x ys else x :: y :: ys

/-- Python `sorted` on a list of strings. -/
def pySorted : List Str → List Str
  | [] => []
  | x :: xs => insertSorted x (pySorted xs)

/-- Enumeration `for i, a in enumerate(qids): for b in qids[i:]`: the `i <= j`
pairs, self-pairs included. -/
def pairsFrom : List Str → List (Str × Str)
  | [] => []
  | a :: rest => (a :: rest).map (fun b => (a, b)) ++ pairsFrom rest

/-- Function `build_pair_table`: one `PairRow` per `i <= j` pair of
lexicographically sorted group labels. -/
def build_pair_table (m : List (Str × List Str)) : List PairRow :=
  (pairsFrom (pySorted (keysOf m))).map (fun ab => mkPairRow m ab.1 ab.2)

/-! ## Line-delimited JSON loading (C8)

`json.loads` is external; it is a parameter `parse` whose `error` result
stands for a raised `JSONDecodeError`. -/
/-- The loop of `read_jsonl` (`query_analyses/analyze_overlap.py` lines
14-22, identically `analysis/analyze_overlap.py` lines 11-20) with its
accumulator: strip each line, skip blank lines, parse the rest; a parse
error escapes the loop (the exception propagates). -/
def read_jsonl_aux (parse : Str → Except Unit α) :
    List Str → List α → Except Unit (List α)
  | [], out => Except.ok out
  | line :: rest, out =>
    if pyStrip line = [] then read_jsonl_aux parse rest out
    else
      match parse (pyStrip line) with
      | Except.error e => Except.error e
      | Except.ok r => read_jsonl_aux parse rest (out ++ [r])

/-- Function `read_jsonl`: the record list for one file, or the propagated parse
error. -/
def read_jsonl (parse : Str → Except Unit α) (lines : List Str) :
    Except Unit (List α) :=
  read_jsonl_aux parse lines []

/-- Success test for `Except`. -/
def isOkB : Except Unit α → Bool
  | Except.ok _ => true
  | Except.error _ => false

/-- The final value of `n_records` in the line loop of `analyze_folder`
(`queries/summary_refs_abs.py` lines 78-89): strip, skip blank lines,
`try: json.loads` with `except JSONDecodeError: continue`, count each
parsed record. -/
def analyze_folder_records (parse : Str → Except Unit α) : List Str → Nat
  | [] => 0
  | line :: rest =>
    if pyStrip line = [] then analyze_folder_records parse rest
    else
      match parse (pyStrip line) with
      | Except.error _ => analyze_folder_records parse rest
      | Except.ok _ => analyze_folder_records parse rest + 1

/-! ## Before/after size report (`write_query_sizes_dedup`) -/
/-- One row of the dedup before/after size table. -/
structure SizeRow where
  query_id : Str
  n_docs_before : Nat
  n_docs_after : Nat

/-- Total `sum(len(s) for s in q2ids.values())`. -/
def sumSizes (m : List (Str × List Str)) : Nat :=
  (m.map (fun p => p.2.length)).sum

/-- The rows written by `write_query_sizes_dedup`
(`query_analyses/analyze_overlap.py` lines 158-182, identically
`build_query_sizes_dedup_df` in `analyze_dedup_abstracts.py`): one row
per sorted raw key with `.get(q, set())` sizes, then the `__TOTAL__`
row of summed sizes. -/
def write_query_sizes_dedup (raw ded : List (Str × List Str)) :
    List SizeRow :=
  (pySorted (keysOf raw)).map (fun q =>
    { query_id := q
      n_docs_before := (lookupD raw q).length
      n_docs_after := (lookupD ded q).length })
  ++ [{ query_id := chars ("__TOTAL__")
        n_docs_before := sumSizes raw
        n_docs_after := sumSizes ded }]

/-- The three-group mapping on which the greedy pass reassigns `"b"`
away from the `(input size, label)`-minimal holder. -/
def exampleABC : List (Str × List Str) :=
  [(chars ("A"), [chars ("a"), chars ("b")]),
   (chars ("B"), [chars ("a"), chars ("b")]),
   (chars ("C"), [chars ("b"), chars ("c"), chars ("d")])]

/-! ## Heap model of `dedup_keep_smallest` (frame property)

Python sets are mutable objects; to settle the no-mutation claim the
dict values are modelled as addresses into a heap of sets. The input
dict maps labels to pre-existing addresses; `out = {q: set(ids) ...}`
allocates fresh copies at the end of the heap; `out[q].remove(rid)`
mutates the heap at out's addresses only. -/
/-- Heap read (a dangling address denotes the empty set). -/
def getStore (st : List (List Str)) (i : Nat) : List Str := st.getD i []

/-- Heap write. -/
def setStore (st : List (List Str)) (i : Nat) (v : List Str) :
    List (List Str) := st.set i v

/-- Address lookup in a label-to-address dict. -/
def lookupN (out : List (Str × Nat)) (q : Str) : Nat :=
  match out with
  | [] => 0
  | p :: rest => if p.1 = q then p.2 else lookupN rest q

/-- The first loop of `dedup_keep_smallest`, reading the input sets from
the heap. -/
def build_rid2qs_heap (st : List (List Str)) (input : List (Str × Nat)) :
    List (Str × List Str) :=
  input.foldl (fun acc p =>
    (getStore st p.2).foldl (fun a rid => appendAssoc a rid p.1) acc) []

/-- Copy step of the out-dict comprehension: allocate a fresh
copy of each input set at the end of the heap and record its address. -/
def heapCopy (st : List (List Str)) (input : List (Str × Nat)) :
    List (List Str) × List (Str × Nat) :=
  input.foldl (fun acc p =>
    (acc.1 ++ [getStore acc.1 p.2], acc.2 ++ [(p.1, acc.1.length)])) (st, [])

/-- Compute `min(qs, key=lambda q: (len(out[q]), q))` with sizes read through
the heap. -/
def pyMinQHeap (st : List (List Str)) (out : List (Str × Nat))
    (qs : List Str) : Str :=
  match qs with
  | [] => []
  | x :: rest =>
    rest.foldl (fun cur y =>
      if keyLtB ((getStore st (lookupN out y)).length, y)
        ((getStore st (lookupN out cur)).length, cur) then y else cur) x

/-- The inner removal loop on the heap. -/
def removePassHeap (rid keep : Str) (out : List (Str × Nat))
    (qs : List Str) (s : List (List Str) × Nat) : List (List Str) × Nat :=
  qs.foldl (fun t q =>
    if q ≠ keep ∧ rid ∈ getStore t.1 (lookupN out q) then
      (setStore t.1 (lookupN out q)
        ((getStore t.1 (lookupN out q)).erase rid), t.2 + 1)
    else t) s

/-- The outer loop body on the heap. -/
def dedupStepHeap (out : List (Str × Nat)) (s : List (List Str) × Nat)
    (e : Str × List Str) : List (List Str) × Nat :=
  if e.2.length ≤ 1 then s
  else removePassHeap e.1 (pyMinQHeap s.1 out e.2) out e.2 s

/-- Function `dedup_keep_smallest` on the heap: returns the final heap, the
label-to-address map of the result dict, and the removal count. -/
def dedup_keep_smallest_heap (st : List (List Str))
    (input : List (Str × Nat)) :
    List (List Str) × List (Str × Nat) × Nat :=
  let r2q := build_rid2qs_heap st input
  let co := heapCopy st input
  let res := r2q.foldl (dedupStepHeap co.2) (co.1, 0)
  (res.1, co.2, res.2)

/-! ## Theorems -/

example : norm_doi (some (chars ("HTTPS://DOI.ORG/10.1/X"))) =
    some (chars ("10.1/x")) := by decide

example : norm_doi (some (chars ("a https://doi.org/"))) =
    some (chars ("a "))  := by decide

example : norm_doi (some (chars ("a "))) = some (chars ("a")) := by decide

example :
    (dedup_keep_smallest
      [(chars ("A"), [chars ("a"), chars ("b")]),
       (chars ("B"), [chars ("a"), chars ("b")]),
       (chars ("C"), [chars ("b"), chars ("c"), chars ("d")])]).1 =
    [(chars ("A"), [chars ("a")]),
     (chars ("B"), [chars ("b")]),
     (chars ("C"), [chars ("c"), chars ("d")])] := by decide

/-! ### Rounding lemmas -/
theorem ratFloor_eq_intFloor (q : ℚ) : Rat.floor q = ⌊q⌋ := by
  rw [Rat.floor_def', Rat.floor_def]

theorem pyRoundInt_nonneg {s : ℚ} (h : 0 ≤ s) : 0 ≤ pyRoundInt s := by
  unfold pyRoundInt
  rw [ratFloor_eq_intFloor]
  have hf : (0 : ℤ) ≤ ⌊s⌋ := Int.floor_nonneg.mpr h
  split
  · exact hf
  · split
    · omega
    · split
      · exact hf
      · omega

theorem pyRoundInt_le_int {s : ℚ} {n : ℤ} (h : s ≤ n) : pyRoundInt s ≤ n := by
  unfold pyRoundInt
  rw [ratFloor_eq_intFloor]
  have hf : ⌊s⌋ ≤ n := by
    calc ⌊s⌋ ≤ ⌊(n : ℚ)⌋ := Int.floor_le_floor h
    _ = n := Int.floor_intCast n
  rcases lt_or_eq_of_le hf with hl | he
  · split
    · omega
    · split
      · omega
      · split
        · omega
        · omega
  · have hs : s - (⌊s⌋ : ℚ) ≤ 0 := by
      rw [he]
      exact sub_nonpos.mpr h
    rw [if_pos (lt_of_le_of_lt hs (by norm_num))]
    omega

theorem pyRoundInt_intCast (n : ℤ) : pyRoundInt (n : ℚ) = n := by
  unfold pyRoundInt
  rw [ratFloor_eq_intFloor, Int.floor_intCast]
  rw [if_pos]
  rw [sub_self]
  norm_num

theorem pyRound6_nonneg {q : ℚ} (h : 0 ≤ q) : 0 ≤ pyRound6 q := by
  unfold pyRound6
  have : (0 : ℤ) ≤ pyRoundInt (q * 1000000) :=
    pyRoundInt_nonneg (by positivity)
  positivity

theorem pyRound6_le_one {q : ℚ} (h : q ≤ 1) : pyRound6 q ≤ 1 := by
  unfold pyRound6
  have hb : pyRoundInt (q * 1000000) ≤ (1000000 : ℤ) := by
    apply pyRoundInt_le_int
    push_cast
    nlinarith
  rw [div_le_one (by norm_num)]
  exact_mod_cast hb

theorem pyRound6_one : pyRound6 1 = 1 := by
  unfold pyRound6
  rw [one_mul, show ((1000000 : ℚ)) = ((1000000 : ℤ) : ℚ) by norm_num,
    pyRoundInt_intCast]
  norm_num

theorem pyRound6_zero : pyRound6 0 = 0 := by
  unfold pyRound6
  rw [zero_mul, show ((0 : ℚ)) = ((0 : ℤ) : ℚ) by norm_num,
    pyRoundInt_intCast]
  norm_num

/-! ### Set-operation lemmas for the pair table -/
theorem interList_self (a : List Str) : interList a a = a := by
  unfold interList
  rw [List.filter_eq_self]
  intro x hx
  simpa using hx

theorem unionList_self (a : List Str) : unionList a a = a := by
  unfold unionList
  have : a.filter (fun x => decide (x ∉ a)) = [] := by
    rw [List.filter_eq_nil_iff]
    intro x hx
    simpa using hx
  rw [this, List.append_nil]

theorem interList_length_le_left (a b : List Str) :
    (interList a b).length ≤ a.length :=
  List.length_filter_le _ a

theorem interList_length_le_union (a b : List Str) :
    (interList a b).length ≤ (unionList a b).length := by
  unfold unionList
  calc (interList a b).length ≤ a.length := interList_length_le_left a b
  _ ≤ a.length + (b.filter (fun x => decide (x ∉ a))).length :=
      Nat.le_add_right _ _
  _ = (a ++ b.filter (fun x => decide (x ∉ a))).length :=
      (List.length_append _ _).symm

/-- C5: in the pairwise overlap table, every self-pair row of a
non-empty group has Jaccard 1, every Jaccard value lies in `[0, 1]`
(it is 0 when the union is empty), and a per-side overlap fraction is 0
when that side's set is empty. -/
theorem pair_table_jaccard_bounds (m : List (Str × List Str)) (a b : Str)
    (hmem : (a, b) ∈ pairsFrom (pySorted (keysOf m))) :
    mkPairRow m a b ∈ build_pair_table m
    ∧ (a = b → (mkPairRow m a b).size_a ≠ 0 → (mkPairRow m a b).jaccard = 1)
    ∧ 0 ≤ (mkPairRow m a b).jaccard
    ∧ (mkPairRow m a b).jaccard ≤ 1
    ∧ ((mkPairRow m a b).union = 0 → (mkPairRow m a b).jaccard = 0)
    ∧ ((mkPairRow m a b).size_a = 0 → (mkPairRow m a b).overlap_pct_of_a = 0)
    ∧ ((mkPairRow m a b).size_b = 0 → (mkPairRow m a b).overlap_pct_of_b = 0) := by
  refine ⟨?_, ?_, ?_, ?_, ?_, ?_, ?_⟩
  · unfold build_pair_table
    exact List.mem_map_of_mem (fun ab => mkPairRow m ab.1 ab.2) hmem
  · intro hab hne
    subst hab
    simp only [mkPairRow, interList_self, unionList_self] at hne ⊢
    rw [if_pos hne, div_self (by exact_mod_cast hne), pyRound6_one]
  · simp only [mkPairRow]
    apply pyRound6_nonneg
    split
    · positivity
    · exact le_refl 0
  · simp only [mkPairRow]
    apply pyRound6_le_one
    split
    · rename_i hu
      rw [div_le_one (by exact_mod_cast Nat.pos_of_ne_zero hu)]
      exact_mod_cast interList_length_le_union _ _
    · norm_num
  · simp only [mkPairRow]
    intro hu
    rw [if_neg (by simpa using hu), pyRound6_zero]
  · simp only [mkPairRow]
    intro hz
    rw [if_neg (by simpa using List.length_eq_zero.mp hz)]
  · simp only [mkPairRow]
    intro hz
    rw [if_neg (by simpa using List.length_eq_zero.mp hz)]

/-- Witness for `pair_table_jaccard_bounds` at a concrete two-group
mapping and its self-pair row. -/
theorem pair_table_jaccard_bounds_w :
    (mkPairRow [(chars ("A"), [chars ("x")]), (chars ("B"), [])]
        (chars ("A")) (chars ("A"))).jaccard = 1 :=
  (pair_table_jaccard_bounds
      [(chars ("A"), [chars ("x")]), (chars ("B"), [])]
      (chars ("A")) (chars ("A")) (by decide)).2.1 rfl (by decide)

/-! ## Claims about identifier derivation (C2, C7) -/
/-- C7 counterexample: `norm_doi` is not idempotent. Stripping a
`doi.org` occurrence can expose trailing whitespace, which a second
normalization then trims away. -/
theorem norm_doi_not_idempotent :
    norm_doi (norm_doi (some (chars ("a https://doi.org/")))) ≠
      norm_doi (some (chars ("a https://doi.org/"))) := by decide

/-- C7 (amended): `"HTTPS://DOI.ORG/10.1/X"` normalizes to `"10.1/x"`,
and while `norm_doi` is not idempotent on all inputs (see the
counterexample), every non-empty string left fixed by trimming,
lowercasing and prefix deletion — in particular an ordinary
already-normalized DOI such as `"10.1/x"` — is a fixpoint of
`norm_doi`. -/
theorem norm_doi_fixedpoint :
    (∀ t : Str, t ≠ [] → pyStrip t = t → pyLower t = t →
      pyReplace t (chars ("https://doi.org/")) [] = t →
      pyReplace t (chars ("http://doi.org/")) [] = t →
      norm_doi (some t) = some t)
    ∧ norm_doi (some (chars ("HTTPS://DOI.ORG/10.1/X"))) =
        some (chars ("10.1/x")) := by
  constructor
  · intro t hne hs hl h1 h2
    simp only [norm_doi]
    rw [if_neg hne, hs, hl, h1, h2]
  · decide

/-- Witness for `norm_doi_fixedpoint` at the already-normalized DOI
`"10.1/x"`. -/
theorem norm_doi_fixedpoint_w :
    norm_doi (some (chars ("10.1/x"))) = some (chars ("10.1/x")) :=
  norm_doi_fixedpoint.1 (chars ("10.1/x")) (by decide) (by decide)
    (by decide) (by decide) (by decide)

/-- C2 counterexample: in `scripts/analysis/analyze_overlap.py` the
`eid` takes precedence over a present DOI (`return eid or doi`), and in
`scripts/query_analyses/analyze_overlap.py` there is no `eid` fallback
at all, so a record with only an `eid` yields no identifier. -/
theorem extract_id_counterexample :
    extract_id_an
        { doi := some (chars ("10.1/X")), dcIdentifier := none,
          prismDoi := none, eid := some (chars ("E1")) } =
      some (chars ("E1"))
    ∧ extract_id_an
        { doi := some (chars ("10.1/X")), dcIdentifier := none,
          prismDoi := none, eid := some (chars ("E1")) } ≠
      some (chars ("10.1/x"))
    ∧ norm_doi (some (chars ("10.1/X"))) = some (chars ("10.1/x"))
    ∧ extract_id_qa
        { doi := none, dcIdentifier := none, prismDoi := none,
          eid := some (chars ("E1")) } = none := by
  refine ⟨by decide, by decide, by decide, by decide⟩

/-- C2 (amended): the analysis variant prefers a truthy `eid` and falls
back to the normalized DOI chain; the query_analyses variant uses only
the DOI chain (no `eid` fallback); in both loaders a record whose
derived identifier is missing or empty is skipped silently, leaving the
mapping unchanged, and otherwise the identifier is added to the record's
group. -/
theorem extract_id_amended (rec : Record) (m : List (Str × List Str))
    (qid : Str) :
    (∀ e, rec.eid = some e → e ≠ [] → extract_id_an rec = some e)
    ∧ (truthy rec.eid = false →
        extract_id_an rec =
          norm_doi (pyOr (pyOr rec.doi rec.dcIdentifier) rec.prismDoi))
    ∧ (rec.doi = none → rec.dcIdentifier = none → rec.prismDoi = none →
        extract_id_qa rec = none)
    ∧ (truthy (extract_id_qa rec) = false →
        add_record extract_id_qa m qid rec = m)
    ∧ (truthy (extract_id_an rec) = false →
        add_record extract_id_an m qid rec = m)
    ∧ (∀ rid, extract_id_qa rec = some rid → rid ≠ [] →
        add_record extract_id_qa m qid rec = setAdd m qid rid) := by
  refine ⟨?_, ?_, ?_, ?_, ?_, ?_⟩
  · intro e he hne
    unfold extract_id_an pyOr
    rw [he]
    simp [truthy, hne]
  · intro hf
    unfold extract_id_an pyOr
    rw [hf]
    simp
  · intro h1 h2 h3
    unfold extract_id_qa
    rw [h1, h2, h3]
    rfl
  · intro hf
    unfold add_record
    cases hx : extract_id_qa rec with
    | none => rfl
    | some rid =>
      rw [hx] at hf
      simp only [truthy] at hf
      simp at hf
      simp [hf]
  · intro hf
    unfold add_record
    cases hx : extract_id_an rec with
    | none => rfl
    | some rid =>
      rw [hx] at hf
      simp only [truthy] at hf
      simp at hf
      simp [hf]
  · intro rid hx hne
    unfold add_record
    rw [hx]
    simp [hne]

/-- Witness for `extract_id_amended`: a record with both a DOI and an
`eid`, where the analysis variant returns the `eid`. -/
theorem extract_id_amended_w :
    extract_id_an
        { doi := some (chars ("10.1/X")), dcIdentifier := none,
          prismDoi := none, eid := some (chars ("E1")) } =
      some (chars ("E1")) :=
  (extract_id_amended
      { doi := some (chars ("10.1/X")), dcIdentifier := none,
        prismDoi := none, eid := some (chars ("E1")) } [] []).1
    (chars ("E1")) rfl (by decide)

theorem read_jsonl_aux_isOk (parse : Str → Except Unit α)
    (lines : List Str) :
    ∀ out, isOkB (read_jsonl_aux parse lines out) =
      lines.all (fun l =>
        decide (pyStrip l = []) || isOkB (parse (pyStrip l))) := by
  induction lines with
  | nil => intro out; rfl
  | cons line rest ih =>
    intro out
    by_cases h : pyStrip line = []
    · simp only [read_jsonl_aux, if_pos h]
      rw [ih]
      simp [h]
    · cases hp : parse (pyStrip line) with
      | error e =>
        simp only [read_jsonl_aux, if_neg h, hp]
        simp [h, hp, isOkB]
      | ok r =>
        simp only [read_jsonl_aux, if_neg h, hp]
        rw [ih]
        simp [h, hp, isOkB]

theorem read_jsonl_aux_skips_blank (parse : Str → Except Unit α)
    (lines : List Str) :
    ∀ out, read_jsonl_aux parse lines out =
      read_jsonl_aux parse
        (lines.filter (fun l => !decide (pyStrip l = []))) out := by
  induction lines with
  | nil => intro out; rfl
  | cons line rest ih =>
    intro out
    by_cases h : pyStrip line = []
    · simp only [read_jsonl_aux, if_pos h, List.filter_cons]
      rw [ih]
      simp [h]
    · have hb : (!decide (pyStrip line = [])) = true := by simp [h]
      cases hp : parse (pyStrip line) with
      | error e =>
        simp only [read_jsonl_aux, if_neg h, hp, List.filter_cons, hb,
          if_pos rfl]
      | ok r =>
        simp only [read_jsonl_aux, if_neg h, hp, List.filter_cons, hb,
          if_pos rfl]
        exact ih (out ++ [r])

theorem analyze_folder_records_count (parse : Str → Except Unit α)
    (lines : List Str) :
    analyze_folder_records parse lines =
      (lines.filter (fun l =>
        !decide (pyStrip l = []) && isOkB (parse (pyStrip l)))).length := by
  induction lines with
  | nil => rfl
  | cons line rest ih =>
    by_cases h : pyStrip line = []
    · simp only [analyze_folder_records, if_pos h, List.filter_cons]
      rw [ih]
      simp [h]
    · cases hp : parse (pyStrip line) with
      | error e =>
        simp only [analyze_folder_records, if_neg h, hp, List.filter_cons]
        rw [ih]
        simp [h, hp, isOkB]
      | ok r =>
        simp only [analyze_folder_records, if_neg h, hp, List.filter_cons]
        rw [ih]
        simp [h, hp, isOkB]

theorem analyze_folder_records_skips_blank (parse : Str → Except Unit α)
    (lines : List Str) :
    analyze_folder_records parse lines =
      analyze_folder_records parse
        (lines.filter (fun l => !decide (pyStrip l = []))) := by
  induction lines with
  | nil => rfl
  | cons line rest ih =>
    by_cases h : pyStrip line = []
    · simp only [analyze_folder_records, if_pos h, List.filter_cons]
      rw [ih]
      simp [h]
    · have hb : (!decide (pyStrip line = [])) = true := by simp [h]
      cases hp : parse (pyStrip line) with
      | error e =>
        simp only [analyze_folder_records, if_neg h, hp, List.filter_cons,
          hb, if_pos rfl]
        exact ih
      | ok r =>
        simp only [analyze_folder_records, if_neg h, hp, List.filter_cons,
          hb, if_pos rfl]
        rw [ih]

/-- C8: a failing non-blank line makes `read_jsonl` fail as a whole
(success is exactly "every non-blank line parses"), while
`analyze_folder` counts exactly the non-blank lines that parse, skipping
malformed ones silently and never failing; blank lines are skipped by
both. -/
theorem jsonl_malformed_line_handling (parse : Str → Except Unit α)
    (lines : List Str) :
    (isOkB (read_jsonl parse lines) =
      lines.all (fun l =>
        decide (pyStrip l = []) || isOkB (parse (pyStrip l))))
    ∧ read_jsonl parse lines =
        read_jsonl parse (lines.filter (fun l => !decide (pyStrip l = [])))
    ∧ analyze_folder_records parse lines =
        (lines.filter (fun l =>
          !decide (pyStrip l = []) && isOkB (parse (pyStrip l)))).length
    ∧ analyze_folder_records parse lines =
        analyze_folder_records parse
          (lines.filter (fun l => !decide (pyStrip l = []))) :=
  ⟨read_jsonl_aux_isOk parse lines [],
    read_jsonl_aux_skips_blank parse lines [],
    analyze_folder_records_count parse lines,
    analyze_folder_records_skips_blank parse lines⟩

/-! ## Association-list lemmas -/
theorem lookupD_removeAt (o : List (Str × List Str)) (q rid k : Str) :
    lookupD (removeAt o q rid) k =
      if k = q then (lookupD o k).erase rid else lookupD o k := by
  induction o with
  | nil =>
    by_cases h : k = q <;> simp [removeAt, lookupD, h]
  | cons p rest ih =>
    by_cases hpq : p.1 = q
    · by_cases hpk : p.1 = k
      · have hkq : k = q := by rw [← hpk, hpq]
        simp [removeAt, lookupD, hpq, hpk, hkq]
      · have hkq : ¬ k = q := fun h => hpk (by rw [hpq, ← h])
        simp only [removeAt, if_pos hpq, lookupD, if_neg hpk]
        rw [ih, if_neg hkq]
    · by_cases hpk : p.1 = k
      · have hkq : ¬ k = q := fun h => hpq (by rw [hpk, h])
        simp only [removeAt, if_neg hpq, lookupD, if_pos hpk]
        rw [if_neg hkq]
      · simp only [removeAt, if_neg hpq, lookupD, if_neg hpk]
        rw [ih]

theorem keysOf_removeAt (o : List (Str × List Str)) (q rid : Str) :
    keysOf (removeAt o q rid) = keysOf o := by
  induction o with
  | nil => rfl
  | cons p rest ih =>
    by_cases hpq : p.1 = q <;>
      simp only [removeAt, if_pos, if_neg, hpq, if_true, ite_true, ite_false,
        keysOf, List.map_cons] <;>
      simp only [keysOf] at ih <;> rw [ih]

theorem removeAt_groups_nodup {o : List (Str × List Str)} (q rid : Str)
    (h : ∀ p ∈ o, p.2.Nodup) : ∀ p ∈ removeAt o q rid, p.2.Nodup := by
  induction o with
  | nil => intro p hp; cases hp
  | cons p0 rest ih =>
    intro p hp
    simp only [removeAt] at hp
    rcases List.mem_cons.mp hp with he | hm
    · by_cases hq : p0.1 = q
      · rw [if_pos hq] at he
        rw [he]
        exact (h p0 (List.mem_cons_self p0 rest)).erase rid
      · rw [if_neg hq] at he
        rw [he]
        exact h p0 (List.mem_cons_self p0 rest)
    · exact ih (fun p hp => h p (List.mem_cons_of_mem _ hp)) p hm

theorem lookupD_nodup {o : List (Str × List Str)}
    (h : ∀ p ∈ o, p.2.Nodup) (k : Str) : (lookupD o k).Nodup := by
  induction o with
  | nil => simp [lookupD]
  | cons p rest ih =>
    simp only [lookupD]
    split
    · exact h p (List.mem_cons_self p rest)
    · exact ih (fun p hp => h p (List.mem_cons_of_mem _ hp))

theorem entry_lookupD {o : List (Str × List Str)}
    (hk : (keysOf o).Nodup) {p : Str × List Str} (hp : p ∈ o) :
    lookupD o p.1 = p.2 := by
  induction o with
  | nil => cases hp
  | cons p0 rest ih =>
    rcases List.mem_cons.mp hp with he | hm
    · rw [he]
      simp [lookupD]
    · have hne : p0.1 ≠ p.1 := by
        intro h
        have hmem : p.1 ∈ keysOf rest := List.mem_map_of_mem _ hm
        rw [← h] at hmem
        exact (List.nodup_cons.mp hk).1 hmem
      simp only [lookupD, if_neg hne]
      exact ih (List.nodup_cons.mp hk).2 hm

theorem keys_mem_entry {o : List (Str × List Str)} {k : Str}
    (hk : k ∈ keysOf o) : (k, lookupD o k) ∈ o := by
  induction o with
  | nil => cases hk
  | cons p rest ih =>
    by_cases hpk : p.1 = k
    · simp only [lookupD, if_pos hpk]
      rw [← hpk]
      exact List.mem_cons_self p rest
    · rcases List.mem_cons.mp hk with he | hm
      · exact absurd he.symm hpk
      · simp only [lookupD, if_neg hpk]
        exact List.mem_cons_of_mem _ (ih hm)

/-! ## `groupsContaining` and `memAny` lemmas -/
theorem groupsContaining_cons (p : Str × List Str)
    (rest : List (Str × List Str)) (id : Str) :
    groupsContaining (p :: rest) id =
      (if id ∈ p.2 then [p.1] else []) ++ groupsContaining rest id := by
  by_cases h : id ∈ p.2 <;> simp [groupsContaining, List.filter_cons, h]

theorem mem_groupsContaining {o : List (Str × List Str)} {id k : Str} :
    k ∈ groupsContaining o id ↔ ∃ p ∈ o, p.1 = k ∧ id ∈ p.2 := by
  simp only [groupsContaining, List.mem_map, List.mem_filter,
    decide_eq_true_eq]
  constructor
  · rintro ⟨p, ⟨hp, hid⟩, hk⟩
    exact ⟨p, hp, hk, hid⟩
  · rintro ⟨p, hp, hk, hid⟩
    exact ⟨p, ⟨hp, hid⟩, hk⟩

theorem memAny_iff_groupsContaining {id : Str} {o : List (Str × List Str)} :
    memAny id o = true ↔ groupsContaining o id ≠ [] := by
  simp only [memAny, List.any_eq_true, decide_eq_true_eq, groupsContaining,
    ne_eq, List.map_eq_nil_iff, List.filter_eq_nil_iff, decide_eq_true_eq]
  push_neg
  constructor
  · rintro ⟨p, hp, hid⟩
    exact ⟨p, hp, hid⟩
  · rintro ⟨p, hp, hid⟩
    exact ⟨p, hp, hid⟩

theorem groupsContaining_nodup {o : List (Str × List Str)} {id : Str}
    (hk : (keysOf o).Nodup) : (groupsContaining o id).Nodup := by
  have hsub : (o.filter (fun p => decide (id ∈ p.2))).Sublist o :=
    List.filter_sublist o
  have h2 : (groupsContaining o id).Sublist (keysOf o) := by
    unfold groupsContaining keysOf
    exact hsub.map fun p => p.1
  exact hk.sublist h2

theorem groupsContaining_eq_filter_keys {o : List (Str × List Str)}
    {id : Str} (hk : (keysOf o).Nodup) :
    groupsContaining o id =
      (keysOf o).filter (fun k => decide (id ∈ lookupD o k)) := by
  induction o with
  | nil => rfl
  | cons p rest ih =>
    have hk2 := List.nodup_cons.mp hk
    rw [groupsContaining_cons]
    have hkeys : keysOf (p :: rest) = p.1 :: keysOf rest := rfl
    rw [hkeys, List.filter_cons]
    have hhead : lookupD (p :: rest) p.1 = p.2 := by
      simp [lookupD]
    have htail :
        (keysOf rest).filter (fun k => decide (id ∈ lookupD (p :: rest) k)) =
          (keysOf rest).filter (fun k => decide (id ∈ lookupD rest k)) := by
      apply List.filter_congr
      intro k hkm
      have hne : p.1 ≠ k := by
        intro h
        apply hk2.1
        show p.1 ∈ List.map (fun p => p.1) rest
        rw [h]
        exact hkm
      simp [lookupD, if_neg hne]
    rw [htail, ← ih hk2.2, hhead]
    by_cases h : id ∈ p.2 <;> simp [h]

theorem nodup_subset_length {l l2 : List Str} (hn : l.Nodup)
    (hs : l ⊆ l2) : l.length ≤ l2.length := by
  calc l.length = l.toFinset.card := (List.toFinset_card_of_nodup hn).symm
  _ ≤ l2.toFinset.card := by
      apply Finset.card_le_card
      intro x hx
      rw [List.mem_toFinset] at hx ⊢
      exact hs hx
  _ ≤ l2.length := l2.toFinset_card_le

theorem nodup_all_eq_length_le_one {l : List Str} {a : Str} (hn : l.Nodup)
    (h : ∀ x ∈ l, x = a) : l.length ≤ 1 := by
  cases l with
  | nil => simp
  | cons x rest =>
    have hx : x = a := h x (List.mem_cons_self x rest)
    have : rest = [] := by
      rw [List.eq_nil_iff_forall_not_mem]
      intro y hy
      have hya : y = a := h y (List.mem_cons_of_mem _ hy)
      have : y = x := hya.trans hx.symm
      rw [this] at hy
      exact (List.nodup_cons.mp hn).1 hy
    rw [this]
    simp

theorem subset_singleton_eq {l : List Str} {a : Str} (hs : l ⊆ [a])
    (hne : l ≠ []) (hn : l.Nodup) : l = [a] := by
  cases l with
  | nil => exact absurd rfl hne
  | cons x rest =>
    have hx : x = a := by
      have := hs (List.mem_cons_self x rest)
      simpa using this
    have hall : ∀ y ∈ rest, y = a := by
      intro y hy
      have := hs (List.mem_cons_of_mem _ hy)
      simpa using this
    have : rest = [] := by
      rw [List.eq_nil_iff_forall_not_mem]
      intro y hy
      have : y = x := (hall y hy).trans hx.symm
      rw [this] at hy
      exact (List.nodup_cons.mp hn).1 hy
    rw [this, hx]

/-! ## `build_rid2qs` characterization -/
theorem lookupD_appendAssoc (acc : List (Str × List Str)) (k v r : Str) :
    lookupD (appendAssoc acc k v) r =
      if r = k then lookupD acc k ++ [v] else lookupD acc r := by
  induction acc with
  | nil =>
    by_cases h : r = k
    · simp [appendAssoc, lookupD, h]
    · have : ¬ k = r := fun he => h he.symm
      simp [appendAssoc, lookupD, h, this]
  | cons p rest ih =>
    by_cases hpk : p.1 = k
    · by_cases hrk : r = k
      · have hpr : p.1 = r := hpk.trans hrk.symm
        simp [appendAssoc, lookupD, hpk, hpr, hrk]
      · have hpr : ¬ p.1 = r := fun h => hrk (hpk ▸ h ▸ rfl)
        simp only [appendAssoc, if_pos hpk, lookupD, if_neg hpr, if_neg hrk]
    · by_cases hrk : r = k
      · have hpr : ¬ p.1 = r := fun h => hpk (h.trans hrk)
        simp only [appendAssoc, if_neg hpk, lookupD, if_neg hpr, if_pos hrk,
          if_neg hpk]
        rw [ih, if_pos hrk]
      · simp only [appendAssoc, if_neg hpk, lookupD]
        rw [if_neg hrk]
        by_cases hpr : p.1 = r
        · rw [if_pos hpr, if_pos hpr]
        · rw [if_neg hpr, if_neg hpr, ih, if_neg hrk]

theorem keys_appendAssoc_mem (acc : List (Str × List Str)) (k v r : Str) :
    r ∈ keysOf (appendAssoc acc k v) ↔ r ∈ keysOf acc ∨ r = k := by
  induction acc with
  | nil => simp [appendAssoc, keysOf]
  | cons p rest ih =>
    by_cases hpk : p.1 = k
    · simp only [appendAssoc, if_pos hpk, keysOf, List.map_cons,
        List.mem_cons]
      constructor
      · rintro (h | h)
        · exact Or.inl (Or.inl h)
        · exact Or.inl (Or.inr h)
      · rintro ((h | h) | h)
        · exact Or.inl h
        · exact Or.inr h
        · exact Or.inl (h.trans hpk.symm)
    · simp only [appendAssoc, if_neg hpk, keysOf, List.map_cons,
        List.mem_cons]
      simp only [keysOf] at ih
      rw [ih]
      tauto

theorem keys_appendAssoc_nodup (acc : List (Str × List Str)) (k v : Str)
    (h : (keysOf acc).Nodup) : (keysOf (appendAssoc acc k v)).Nodup := by
  induction acc with
  | nil => simp [appendAssoc, keysOf]
  | cons p rest ih =>
    have h2 := List.nodup_cons.mp h
    by_cases hpk : p.1 = k
    · simpa [appendAssoc, if_pos hpk, keysOf] using h
    · simp only [appendAssoc, if_neg hpk, keysOf, List.map_cons,
        List.nodup_cons]
      refine ⟨?_, ih h2.2⟩
      intro hmem
      have : p.1 ∈ keysOf (appendAssoc rest k v) := hmem
      rcases (keys_appendAssoc_mem rest k v p.1).mp this with hi | he
      · exact h2.1 hi
      · exact hpk he

theorem vals_appendAssoc_ne_nil (acc : List (Str × List Str)) (k v : Str)
    (h : ∀ p ∈ acc, p.2 ≠ []) : ∀ p ∈ appendAssoc acc k v, p.2 ≠ [] := by
  induction acc with
  | nil =>
    intro p hp
    simp only [appendAssoc, List.mem_singleton] at hp
    rw [hp]
    simp
  | cons p0 rest ih =>
    intro p hp
    by_cases hpk : p0.1 = k
    · simp only [appendAssoc, if_pos hpk, List.mem_cons] at hp
      rcases hp with he | hm
      · rw [he]
        simp
      · exact h p (List.mem_cons_of_mem _ hm)
    · simp only [appendAssoc, if_neg hpk, List.mem_cons] at hp
      rcases hp with he | hm
      · rw [he]
        exact h p0 (List.mem_cons_self p0 rest)
      · exact ih (fun p hp => h p (List.mem_cons_of_mem _ hp)) p hm

theorem lookupD_idsFold (q : Str) (ids : List Str) (hn : ids.Nodup) :
    ∀ (acc : List (Str × List Str)) (r : Str),
      lookupD (ids.foldl (fun a rid => appendAssoc a rid q) acc) r =
        lookupD acc r ++ (if r ∈ ids then [q] else []) := by
  induction ids with
  | nil => intro acc r; simp
  | cons i rest ih =>
    intro acc r
    have hn2 := List.nodup_cons.mp hn
    simp only [List.foldl_cons]
    rw [ih hn2.2, lookupD_appendAssoc]
    by_cases hri : r = i
    · have hnr : r ∉ rest := by rw [hri]; exact hn2.1
      rw [if_pos hri, if_neg hnr, if_pos (by rw [hri]; exact List.mem_cons_self i rest)]
      rw [hri]
      simp
    · rw [if_neg hri]
      by_cases hr : r ∈ rest
      · rw [if_pos hr, if_pos (List.mem_cons_of_mem _ hr)]
      · rw [if_neg hr, if_neg (by
          intro hm
          rcases List.mem_cons.mp hm with he | hm2
          · exact hri he
          · exact hr hm2)]

theorem keys_idsFold_mem (q : Str) (ids : List Str) :
    ∀ (acc : List (Str × List Str)) (r : Str),
      r ∈ keysOf (ids.foldl (fun a rid => appendAssoc a rid q) acc) ↔
        r ∈ keysOf acc ∨ r ∈ ids := by
  induction ids with
  | nil => intro acc r; simp
  | cons i rest ih =>
    intro acc r
    simp only [List.foldl_cons]
    rw [ih, keys_appendAssoc_mem]
    simp only [List.mem_cons]
    tauto

theorem keys_idsFold_nodup (q : Str) (ids : List Str) :
    ∀ (acc : List (Str × List Str)), (keysOf acc).Nodup →
      (keysOf (ids.foldl (fun a rid => appendAssoc a rid q) acc)).Nodup := by
  induction ids with
  | nil => intro acc h; exact h
  | cons i rest ih =>
    intro acc h
    simp only [List.foldl_cons]
    exact ih _ (keys_appendAssoc_nodup acc i q h)

theorem vals_idsFold_ne_nil (q : Str) (ids : List Str) :
    ∀ (acc : List (Str × List Str)), (∀ p ∈ acc, p.2 ≠ []) →
      ∀ p ∈ ids.foldl (fun a rid => appendAssoc a rid q) acc, p.2 ≠ [] := by
  induction ids with
  | nil => intro acc h; exact h
  | cons i rest ih =>
    intro acc h
    simp only [List.foldl_cons]
    exact ih _ (vals_appendAssoc_ne_nil acc i q h)

theorem lookupD_build_rid2qs_aux (m : List (Str × List Str))
    (hg : ∀ p ∈ m, p.2.Nodup) :
    ∀ (acc : List (Str × List Str)) (r : Str),
      lookupD
        (m.foldl (fun acc p =>
          p.2.foldl (fun a rid => appendAssoc a rid p.1) acc) acc) r =
        lookupD acc r ++ groupsContaining m r := by
  induction m with
  | nil => intro acc r; simp [groupsContaining]
  | cons p rest ih =>
    intro acc r
    simp only [List.foldl_cons]
    rw [ih (fun p hp => hg p (List.mem_cons_of_mem _ hp)),
      lookupD_idsFold p.1 p.2 (hg p (List.mem_cons_self p rest)),
      groupsContaining_cons, List.append_assoc]

theorem lookupD_build_rid2qs (m : List (Str × List Str))
    (hg : ∀ p ∈ m, p.2.Nodup) (r : Str) :
    lookupD (build_rid2qs m) r = groupsContaining m r := by
  have := lookupD_build_rid2qs_aux m hg [] r
  simpa [build_rid2qs, lookupD] using this

theorem keys_build_rid2qs_mem_aux (m : List (Str × List Str)) :
    ∀ (acc : List (Str × List Str)) (r : Str),
      r ∈ keysOf
        (m.foldl (fun acc p =>
          p.2.foldl (fun a rid => appendAssoc a rid p.1) acc) acc) ↔
        r ∈ keysOf acc ∨ ∃ p ∈ m, r ∈ p.2 := by
  induction m with
  | nil => intro acc r; simp
  | cons p rest ih =>
    intro acc r
    simp only [List.foldl_cons]
    rw [ih, keys_idsFold_mem]
    simp only [List.mem_cons]
    constructor
    · rintro ((h | h) | ⟨p2, hp2, hr⟩)
      · exact Or.inl h
      · exact Or.inr ⟨p, Or.inl rfl, h⟩
      · exact Or.inr ⟨p2, Or.inr hp2, hr⟩
    · rintro (h | ⟨p2, hp2 | hp2, hr⟩)
      · exact Or.inl (Or.inl h)
      · exact Or.inl (Or.inr (hp2 ▸ hr))
      · exact Or.inr ⟨p2, hp2, hr⟩

theorem keys_build_rid2qs_mem (m : List (Str × List Str)) (r : Str) :
    r ∈ keysOf (build_rid2qs m) ↔ memAny r m = true := by
  rw [build_rid2qs, keys_build_rid2qs_mem_aux]
  simp [memAny, List.any_eq_true, keysOf]

theorem keys_build_rid2qs_nodup (m : List (Str × List Str)) :
    (keysOf (build_rid2qs m)).Nodup := by
  have : ∀ (acc : List (Str × List Str)), (keysOf acc).Nodup →
      (keysOf
        (m.foldl (fun acc p =>
          p.2.foldl (fun a rid => appendAssoc a rid p.1) acc) acc)).Nodup := by
    induction m with
    | nil => intro acc h; exact h
    | cons p rest ih =>
      intro acc h
      simp only [List.foldl_cons]
      exact ih _ (keys_idsFold_nodup p.1 p.2 acc h)
  exact this [] (by simp [keysOf])

theorem vals_build_rid2qs_ne_nil (m : List (Str × List Str)) :
    ∀ e ∈ build_rid2qs m, e.2 ≠ [] := by
  have : ∀ (acc : List (Str × List Str)), (∀ p ∈ acc, p.2 ≠ []) →
      ∀ e ∈ m.foldl (fun acc p =>
        p.2.foldl (fun a rid => appendAssoc a rid p.1) acc) acc, e.2 ≠ [] := by
    induction m with
    | nil => intro acc h; exact h
    | cons p rest ih =>
      intro acc h
      simp only [List.foldl_cons]
      exact ih _ (vals_idsFold_ne_nil p.1 p.2 acc h)
  exact this [] (by intro p hp; cases hp)

theorem entries_build_rid2qs {m : List (Str × List Str)}
    (hg : ∀ p ∈ m, p.2.Nodup) {e : Str × List Str}
    (he : e ∈ build_rid2qs m) : e.2 = groupsContaining m e.1 := by
  have h1 := entry_lookupD (keys_build_rid2qs_nodup m) he
  rw [← h1, lookupD_build_rid2qs m hg]

/-! ## `pyMinQ` and `removePass` lemmas -/
theorem pyMinQ_mem (out : List (Str × List Str)) {qs : List Str}
    (h : qs ≠ []) : pyMinQ out qs ∈ qs := by
  match qs with
  | [] => exact absurd rfl h
  | x :: rest =>
    suffices hgen : ∀ (rest : List Str) (x : Str),
        (rest.foldl (fun cur y =>
          if keyLtB ((lookupD out y).length, y) ((lookupD out cur).length, cur)
          then y else cur) x) ∈ x :: rest by
      exact hgen rest x
    intro rest
    induction rest with
    | nil => intro x; exact List.mem_singleton.mpr rfl
    | cons y rest2 ih =>
      intro x
      simp only [List.foldl_cons]
      split
      · exact List.mem_cons_of_mem _ (ih y)
      · rcases List.mem_cons.mp (ih x) with he | hm
        · rw [he]; exact List.mem_cons_self x _
        · exact List.mem_cons_of_mem _ (List.mem_cons_of_mem _ hm)

theorem removePass_keys (rid keep : Str) (qs : List Str) :
    ∀ s, keysOf (removePass rid keep qs s).1 = keysOf s.1 := by
  induction qs with
  | nil => intro s; rfl
  | cons q qs2 ih =>
    intro s
    simp only [removePass, List.foldl_cons]
    split
    · rw [show (List.foldl _ (removeAt s.1 q rid, s.2 + 1) qs2) =
        removePass rid keep qs2 (removeAt s.1 q rid, s.2 + 1) from rfl,
        ih, keysOf_removeAt]
    · exact ih s

theorem removePass_groups_nodup (rid keep : Str) (qs : List Str) :
    ∀ s, (∀ p ∈ s.1, p.2.Nodup) →
      ∀ p ∈ (removePass rid keep qs s).1, p.2.Nodup := by
  induction qs with
  | nil => intro s h; exact h
  | cons q qs2 ih =>
    intro s h
    simp only [removePass, List.foldl_cons]
    split
    · exact ih (removeAt s.1 q rid, s.2 + 1) (removeAt_groups_nodup q rid h)
    · exact ih s h

theorem removePass_lookup_subset (rid keep : Str) (qs : List Str) :
    ∀ s k x, x ∈ lookupD (removePass rid keep qs s).1 k →
      x ∈ lookupD s.1 k := by
  induction qs with
  | nil => intro s k x hx; exact hx
  | cons q qs2 ih =>
    intro s k x hx
    simp only [removePass, List.foldl_cons] at hx
    by_cases hc : q ≠ keep ∧ rid ∈ lookupD s.1 q
    · rw [if_pos hc] at hx
      have h2 := ih _ k x hx
      rw [lookupD_removeAt] at h2
      by_cases hkq : k = q
      · rw [if_pos hkq] at h2
        exact (List.erase_subset _ _) h2
      · rw [if_neg hkq] at h2
        exact h2
    · rw [if_neg hc] at hx
      exact ih s k x hx

theorem removePass_other_id (rid keep : Str) (qs : List Str) :
    ∀ s k x, x ≠ rid →
      (x ∈ lookupD (removePass rid keep qs s).1 k ↔ x ∈ lookupD s.1 k) := by
  induction qs with
  | nil => intro s k x _; exact Iff.rfl
  | cons q qs2 ih =>
    intro s k x hx
    simp only [removePass, List.foldl_cons]
    by_cases hc : q ≠ keep ∧ rid ∈ lookupD s.1 q
    · rw [if_pos hc]
      rw [show (List.foldl _ (removeAt s.1 q rid, s.2 + 1) qs2) =
        removePass rid keep qs2 (removeAt s.1 q rid, s.2 + 1) from rfl]
      rw [ih _ k x hx, lookupD_removeAt]
      by_cases hkq : k = q
      · rw [if_pos hkq]
        exact List.mem_erase_of_ne hx
      · rw [if_neg hkq]
    · rw [if_neg hc]
      exact ih s k x hx

theorem removePass_untouched (rid keep : Str) (qs : List Str) :
    ∀ s k, (k ∉ qs ∨ k = keep) →
      lookupD (removePass rid keep qs s).1 k = lookupD s.1 k := by
  induction qs with
  | nil => intro s k _; rfl
  | cons q qs2 ih =>
    intro s k hk
    have hk2 : k ∉ qs2 ∨ k = keep := by
      rcases hk with h | h
      · exact Or.inl (fun hm => h (List.mem_cons_of_mem _ hm))
      · exact Or.inr h
    simp only [removePass, List.foldl_cons]
    split
    · rename_i hcond
      have hkq : ¬ k = q := by
        rcases hk with h | h
        · exact fun he => h (he ▸ List.mem_cons_self q qs2)
        · exact fun he => hcond.1 (by rw [← he, h])
      rw [show (List.foldl _ (removeAt s.1 q rid, s.2 + 1) qs2) =
        removePass rid keep qs2 (removeAt s.1 q rid, s.2 + 1) from rfl,
        ih _ k hk2, lookupD_removeAt, if_neg hkq]
    · exact ih s k hk2

theorem removePass_removed (rid keep : Str) (qs : List Str) :
    ∀ s, qs.Nodup → (∀ p ∈ s.1, p.2.Nodup) →
      ∀ q ∈ qs, q ≠ keep →
        rid ∉ lookupD (removePass rid keep qs s).1 q := by
  induction qs with
  | nil => intro s _ _ q hq; cases hq
  | cons q0 qs2 ih =>
    intro s hn hg q hq hqk
    have hn2 := List.nodup_cons.mp hn
    rcases List.mem_cons.mp hq with he | hm
    · subst he
      simp only [removePass, List.foldl_cons]
      by_cases hc : q ≠ keep ∧ rid ∈ lookupD s.1 q
      · rw [if_pos hc]
        have hun : lookupD
            (removePass rid keep qs2 (removeAt s.1 q rid, s.2 + 1)).1 q =
            lookupD (removeAt s.1 q rid, s.2 + 1).1 q :=
          removePass_untouched rid keep qs2 _ q (Or.inl hn2.1)
        rw [show (List.foldl _ (removeAt s.1 q rid, s.2 + 1) qs2) =
          removePass rid keep qs2 (removeAt s.1 q rid, s.2 + 1) from rfl,
          hun]
        have : lookupD (removeAt s.1 q rid, s.2 + 1).1 q =
            (lookupD s.1 q).erase rid := by
          rw [show (removeAt s.1 q rid, s.2 + 1).1 = removeAt s.1 q rid
            from rfl, lookupD_removeAt, if_pos rfl]
        rw [this]
        exact (lookupD_nodup hg q).not_mem_erase
      · rw [if_neg hc]
        have hun : lookupD (removePass rid keep qs2 s).1 q =
            lookupD s.1 q :=
          removePass_untouched rid keep qs2 s q (Or.inl hn2.1)
        rw [show (List.foldl _ s qs2) = removePass rid keep qs2 s from rfl,
          hun]
        intro hmem
        exact hc ⟨hqk, hmem⟩
    · simp only [removePass, List.foldl_cons]
      by_cases hc : q0 ≠ keep ∧ rid ∈ lookupD s.1 q0
      · rw [if_pos hc]
        exact ih (removeAt s.1 q0 rid, s.2 + 1) hn2.2
          (removeAt_groups_nodup q0 rid hg) q hm hqk
      · rw [if_neg hc]
        exact ih s hn2.2 hg q hm hqk

/-! ## `dedupStep` lemmas -/
theorem gc_mem_keys {o : List (Str × List Str)} (hk : (keysOf o).Nodup)
    {id k : Str} :
    k ∈ groupsContaining o id ↔ (k ∈ keysOf o ∧ id ∈ lookupD o k) := by
  rw [groupsContaining_eq_filter_keys hk]
  simp [List.mem_filter]

theorem gc_subset_of_lookup_subset {o o2 : List (Str × List Str)}
    (hkeq : keysOf o2 = keysOf o) (hk : (keysOf o).Nodup)
    (hsub : ∀ k x, x ∈ lookupD o2 k → x ∈ lookupD o k) (id : Str) :
    groupsContaining o2 id ⊆ groupsContaining o id := by
  intro k hkm
  have hk2 : (keysOf o2).Nodup := by rw [hkeq]; exact hk
  rcases (gc_mem_keys hk2).mp hkm with ⟨hker, hlk⟩
  exact (gc_mem_keys hk).mpr ⟨by rw [← hkeq]; exact hker, hsub k id hlk⟩

theorem dedupStep_keys (s : List (Str × List Str) × Nat)
    (e : Str × List Str) : keysOf (dedupStep s e).1 = keysOf s.1 := by
  unfold dedupStep
  split
  · rfl
  · exact removePass_keys e.1 (pyMinQ s.1 e.2) e.2 s

theorem dedupStep_groups_nodup (s : List (Str × List Str) × Nat)
    (e : Str × List Str) (h : ∀ p ∈ s.1, p.2.Nodup) :
    ∀ p ∈ (dedupStep s e).1, p.2.Nodup := by
  unfold dedupStep
  split
  · exact h
  · exact removePass_groups_nodup e.1 (pyMinQ s.1 e.2) e.2 s h

theorem dedupStep_lookup_subset (s : List (Str × List Str) × Nat)
    (e : Str × List Str) (k x : Str)
    (hx : x ∈ lookupD (dedupStep s e).1 k) : x ∈ lookupD s.1 k := by
  unfold dedupStep at hx
  split at hx
  · exact hx
  · exact removePass_lookup_subset e.1 (pyMinQ s.1 e.2) e.2 s k x hx

theorem dedupStep_other_id (s : List (Str × List Str) × Nat)
    (e : Str × List Str) (k x : Str) (hx : x ≠ e.1) :
    (x ∈ lookupD (dedupStep s e).1 k ↔ x ∈ lookupD s.1 k) := by
  unfold dedupStep
  split
  · exact Iff.rfl
  · exact removePass_other_id e.1 (pyMinQ s.1 e.2) e.2 s k x hx

theorem dedupStep_disjoint (s : List (Str × List Str) × Nat)
    (e : Str × List Str) (hk : (keysOf s.1).Nodup)
    (hg : ∀ p ∈ s.1, p.2.Nodup) (hqs : e.2.Nodup)
    (hcomp : ∀ k ∈ keysOf s.1, e.1 ∈ lookupD s.1 k → k ∈ e.2) :
    (groupsContaining (dedupStep s e).1 e.1).length ≤ 1 := by
  unfold dedupStep
  split
  · rename_i hlen
    have hsub : groupsContaining s.1 e.1 ⊆ e.2 := by
      intro k hkm
      rcases (gc_mem_keys hk).mp hkm with ⟨hker, hlk⟩
      exact hcomp k hker hlk
    calc (groupsContaining s.1 e.1).length ≤ e.2.length :=
        nodup_subset_length (groupsContaining_nodup hk) hsub
    _ ≤ 1 := hlen
  · rename_i hlen
    have hne : e.2 ≠ [] := by
      intro h
      rw [h] at hlen
      simp at hlen
    have hkeep : pyMinQ s.1 e.2 ∈ e.2 := pyMinQ_mem s.1 hne
    have hk2 : (keysOf (removePass e.1 (pyMinQ s.1 e.2) e.2 s).1).Nodup := by
      rw [removePass_keys]
      exact hk
    apply nodup_all_eq_length_le_one (groupsContaining_nodup hk2)
    intro k hkm
    rcases (gc_mem_keys hk2).mp hkm with ⟨hker, hlk⟩
    rw [removePass_keys] at hker
    by_cases hin : k ∈ e.2
    · by_cases hkeq : k = pyMinQ s.1 e.2
      · exact hkeq
      · exact absurd hlk
          (removePass_removed e.1 (pyMinQ s.1 e.2) e.2 s hqs hg k hin hkeq)
    · have hun : lookupD (removePass e.1 (pyMinQ s.1 e.2) e.2 s).1 k =
          lookupD s.1 k :=
        removePass_untouched e.1 (pyMinQ s.1 e.2) e.2 s k (Or.inl hin)
      rw [hun] at hlk
      exact absurd (hcomp k hker hlk) hin

theorem dedupStep_memAny (s : List (Str × List Str) × Nat)
    (e : Str × List Str) (hk : (keysOf s.1).Nodup)
    (hsound : ∀ q ∈ e.2, q ∈ keysOf s.1 ∧ e.1 ∈ lookupD s.1 q) (id : Str) :
    memAny id (dedupStep s e).1 = memAny id s.1 := by
  have hkeq : keysOf (dedupStep s e).1 = keysOf s.1 := dedupStep_keys s e
  have hk2 : (keysOf (dedupStep s e).1).Nodup := by rw [hkeq]; exact hk
  by_cases hid : id = e.1
  · rw [hid]
    unfold dedupStep
    split
    · rfl
    · rename_i hlen
      have hne : e.2 ≠ [] := by
        intro h
        rw [h] at hlen
        simp at hlen
      have hkeep : pyMinQ s.1 e.2 ∈ e.2 := pyMinQ_mem s.1 hne
      rcases hsound _ hkeep with ⟨hker, hlk⟩
      have hkr : (keysOf (removePass e.1 (pyMinQ s.1 e.2) e.2 s).1).Nodup := by
        rw [removePass_keys]
        exact hk
      have h1 : memAny e.1 (removePass e.1 (pyMinQ s.1 e.2) e.2 s).1 = true := by
        rw [memAny_iff_groupsContaining]
        intro hnil
        have hmm : pyMinQ s.1 e.2 ∈
            groupsContaining (removePass e.1 (pyMinQ s.1 e.2) e.2 s).1 e.1 := by
          apply (gc_mem_keys hkr).mpr
          constructor
          · rw [removePass_keys]
            exact hker
          · rw [removePass_untouched e.1 (pyMinQ s.1 e.2) e.2 s _
              (Or.inr rfl)]
            exact hlk
        rw [hnil] at hmm
        cases hmm
      have h2 : memAny e.1 s.1 = true := by
        rw [memAny_iff_groupsContaining]
        intro hnil
        have hmm : pyMinQ s.1 e.2 ∈ groupsContaining s.1 e.1 :=
          (gc_mem_keys hk).mpr ⟨hker, hlk⟩
        rw [hnil] at hmm
        cases hmm
      rw [h1, h2]
  · have hiff : memAny id (dedupStep s e).1 = true ↔ memAny id s.1 = true := by
      rw [memAny_iff_groupsContaining, memAny_iff_groupsContaining]
      constructor
      · intro hne hnil
        apply hne
        rw [List.eq_nil_iff_forall_not_mem] at hnil ⊢
        intro k hkm
        rcases (gc_mem_keys hk2).mp hkm with ⟨hker, hlk⟩
        have := (dedupStep_other_id s e k id hid).mp hlk
        exact hnil k ((gc_mem_keys hk).mpr ⟨by rw [← hkeq]; exact hker, this⟩)
      · intro hne hnil
        apply hne
        rw [List.eq_nil_iff_forall_not_mem] at hnil ⊢
        intro k hkm
        rcases (gc_mem_keys hk).mp hkm with ⟨hker, hlk⟩
        have := (dedupStep_other_id s e k id hid).mpr hlk
        exact hnil k ((gc_mem_keys hk2).mpr ⟨by rw [hkeq]; exact hker, this⟩)
    cases hb : memAny id s.1
    · cases hb2 : memAny id (dedupStep s e).1
      · rfl
      · rw [hb] at hiff
        have := hiff.mp hb2
        cases this
    · exact hiff.mpr hb

/-! ## Main invariant of the `rid2qs` fold -/
theorem dedup_fold_main (L : List (Str × List Str)) :
    ∀ (s : List (Str × List Str) × Nat),
      (keysOf s.1).Nodup →
      (∀ p ∈ s.1, p.2.Nodup) →
      (L.map (fun e => e.1)).Nodup →
      (∀ e ∈ L, ∀ q ∈ e.2, q ∈ keysOf s.1 ∧ e.1 ∈ lookupD s.1 q) →
      (∀ e ∈ L, ∀ k ∈ keysOf s.1, e.1 ∈ lookupD s.1 k → k ∈ e.2) →
      (∀ e ∈ L, e.2.Nodup) →
      keysOf (L.foldl dedupStep s).1 = keysOf s.1
      ∧ (∀ p ∈ (L.foldl dedupStep s).1, p.2.Nodup)
      ∧ (∀ k x, x ∈ lookupD (L.foldl dedupStep s).1 k → x ∈ lookupD s.1 k)
      ∧ (∀ id, memAny id (L.foldl dedupStep s).1 = memAny id s.1)
      ∧ (∀ e ∈ L, (groupsContaining (L.foldl dedupStep s).1 e.1).length ≤ 1) := by
  induction L with
  | nil =>
    intro s hk hg _ _ _ _
    exact ⟨rfl, hg, fun k x hx => hx, fun id => rfl, fun e he => (by cases he)⟩
  | cons e L2 ih =>
    intro s hk hg hL hsound hcomp hvnd
    have hLn := List.nodup_cons.mp hL
    have hsk : keysOf (dedupStep s e).1 = keysOf s.1 := dedupStep_keys s e
    have hsk2 : (keysOf (dedupStep s e).1).Nodup := by rw [hsk]; exact hk
    have hsg : ∀ p ∈ (dedupStep s e).1, p.2.Nodup :=
      dedupStep_groups_nodup s e hg
    have hne1 : ∀ e2 ∈ L2, e2.1 ≠ e.1 := by
      intro e2 he2 hcontra
      apply hLn.1
      show e.1 ∈ List.map (fun e => e.1) L2
      rw [← hcontra]
      exact List.mem_map_of_mem _ he2
    have hsound2 : ∀ e2 ∈ L2, ∀ q ∈ e2.2,
        q ∈ keysOf (dedupStep s e).1 ∧ e2.1 ∈ lookupD (dedupStep s e).1 q := by
      intro e2 he2 q hq
      rcases hsound e2 (List.mem_cons_of_mem _ he2) q hq with ⟨h1, h2⟩
      exact ⟨by rw [hsk]; exact h1,
        (dedupStep_other_id s e q e2.1 (hne1 e2 he2)).mpr h2⟩
    have hcomp2 : ∀ e2 ∈ L2, ∀ k ∈ keysOf (dedupStep s e).1,
        e2.1 ∈ lookupD (dedupStep s e).1 k → k ∈ e2.2 := by
      intro e2 he2 k hker hlk
      apply hcomp e2 (List.mem_cons_of_mem _ he2) k (by rw [← hsk]; exact hker)
      exact (dedupStep_other_id s e k e2.1 (hne1 e2 he2)).mp hlk
    have hvnd2 : ∀ e2 ∈ L2, e2.2.Nodup :=
      fun e2 he2 => hvnd e2 (List.mem_cons_of_mem _ he2)
    rcases ih (dedupStep s e) hsk2 hsg hLn.2 hsound2 hcomp2 hvnd2 with
      ⟨ihk, ihg, ihsub, ihmem, ihdis⟩
    simp only [List.foldl_cons]
    refine ⟨ihk.trans hsk, ihg, ?_, ?_, ?_⟩
    · intro k x hx
      exact dedupStep_lookup_subset s e k x (ihsub k x hx)
    · intro id
      rw [ihmem id]
      exact dedupStep_memAny s e hk
        (hsound e (List.mem_cons_self e L2)) id
    · intro e2 he2
      rcases List.mem_cons.mp he2 with heq | hm
      · rw [heq]
        have hd1 : (groupsContaining (dedupStep s e).1 e.1).length ≤ 1 :=
          dedupStep_disjoint s e hk hg (hvnd e (List.mem_cons_self e L2))
            (hcomp e (List.mem_cons_self e L2))
        have hsubgc : groupsContaining (L2.foldl dedupStep (dedupStep s e)).1
            e.1 ⊆ groupsContaining (dedupStep s e).1 e.1 :=
          gc_subset_of_lookup_subset ihk hsk2 ihsub e.1
        have hnd : (groupsContaining
            (L2.foldl dedupStep (dedupStep s e)).1 e.1).Nodup := by
          apply groupsContaining_nodup
          rw [ihk]
          exact hsk2
        calc (groupsContaining (L2.foldl dedupStep (dedupStep s e)).1
            e.1).length
            ≤ (groupsContaining (dedupStep s e).1 e.1).length :=
              nodup_subset_length hnd hsubgc
        _ ≤ 1 := hd1
      · exact ihdis e2 hm

/-! ## Top-level dedup results -/
theorem map_eta (m : List (Str × List Str)) :
    m.map (fun p => (p.1, p.2)) = m := by
  induction m with
  | nil => rfl
  | cons p rest ih => simp [ih]

theorem dedup_eq_fold (m : List (Str × List Str)) :
    dedup_keep_smallest m = (build_rid2qs m).foldl dedupStep (m, 0) := by
  unfold dedup_keep_smallest
  rw [map_eta]

theorem dedup_fold_keys (L : List (Str × List Str)) :
    ∀ s, keysOf ((L.foldl dedupStep s).1) = keysOf s.1 := by
  induction L with
  | nil => intro s; rfl
  | cons e L2 ih =>
    intro s
    simp only [List.foldl_cons]
    rw [ih (dedupStep s e), dedupStep_keys]

/-- The facts `dedup_fold_main` yields for the actual
`dedup_keep_smallest` run on a well-formed mapping. -/
theorem dedup_main_for (m : List (Str × List Str)) (hwf : WF m) :
    keysOf (dedup_keep_smallest m).1 = keysOf m
    ∧ (∀ p ∈ (dedup_keep_smallest m).1, p.2.Nodup)
    ∧ (∀ k x, x ∈ lookupD (dedup_keep_smallest m).1 k → x ∈ lookupD m k)
    ∧ (∀ id, memAny id (dedup_keep_smallest m).1 = memAny id m)
    ∧ (∀ id, (groupsContaining (dedup_keep_smallest m).1 id).length ≤ 1) := by
  have hentry : ∀ e ∈ build_rid2qs m, e.2 = groupsContaining m e.1 :=
    fun e he => entries_build_rid2qs hwf.2 he
  have hsound : ∀ e ∈ build_rid2qs m, ∀ q ∈ e.2,
      q ∈ keysOf (m, 0).1 ∧ e.1 ∈ lookupD (m, 0).1 q := by
    intro e he q hq
    rw [hentry e he] at hq
    exact (gc_mem_keys hwf.1).mp hq
  have hcomp : ∀ e ∈ build_rid2qs m, ∀ k ∈ keysOf (m, 0).1,
      e.1 ∈ lookupD (m, 0).1 k → k ∈ e.2 := by
    intro e he k hker hlk
    rw [hentry e he]
    exact (gc_mem_keys hwf.1).mpr ⟨hker, hlk⟩
  have hvnd : ∀ e ∈ build_rid2qs m, e.2.Nodup := by
    intro e he
    rw [hentry e he]
    exact groupsContaining_nodup hwf.1
  have hmain := dedup_fold_main (build_rid2qs m) (m, 0) hwf.1 hwf.2
    (keys_build_rid2qs_nodup m) hsound hcomp hvnd
  rcases hmain with ⟨hkeys, hnodup, hsub, hmem, hdis⟩
  rw [← dedup_eq_fold] at hkeys hnodup hsub hmem hdis
  refine ⟨hkeys, hnodup, hsub, hmem, ?_⟩
  intro id
  cases hb : memAny id m with
  | true =>
    have hkm : id ∈ keysOf (build_rid2qs m) :=
      (keys_build_rid2qs_mem m id).mpr hb
    rcases List.mem_map.mp hkm with ⟨e, he, h1⟩
    have := hdis e he
    rw [h1] at this
    exact this
  | false =>
    have hnil : groupsContaining m id = [] := by
      by_contra hne
      have hb2 : memAny id m = true := memAny_iff_groupsContaining.mpr hne
      rw [hb] at hb2
      cases hb2
    have hsubgc : groupsContaining (dedup_keep_smallest m).1 id ⊆
        groupsContaining m id :=
      gc_subset_of_lookup_subset hkeys hwf.1 hsub id
    rw [hnil] at hsubgc
    have : groupsContaining (dedup_keep_smallest m).1 id = [] := by
      rw [List.eq_nil_iff_forall_not_mem]
      intro x hx
      cases hsubgc hx
    rw [this]
    simp

theorem dedup_fold_trivial (L : List (Str × List Str)) :
    ∀ s, (∀ e ∈ L, e.2.length ≤ 1) → L.foldl dedupStep s = s := by
  induction L with
  | nil => intro s _; rfl
  | cons e L2 ih =>
    intro s h
    simp only [List.foldl_cons]
    have hstep : dedupStep s e = s := by
      unfold dedupStep
      rw [if_pos (h e (List.mem_cons_self e L2))]
    rw [hstep]
    exact ih s (fun e2 he2 => h e2 (List.mem_cons_of_mem _ he2))

theorem dedup_of_disjoint (o : List (Str × List Str)) (hwf : WF o)
    (hdis : ∀ id, (groupsContaining o id).length ≤ 1) :
    dedup_keep_smallest o = (o, 0) := by
  rw [dedup_eq_fold]
  apply dedup_fold_trivial
  intro e he
  rw [entries_build_rid2qs hwf.2 he]
  exact hdis e.1

theorem insertSorted_length (x : Str) (l : List Str) :
    (insertSorted x l).length = l.length + 1 := by
  induction l with
  | nil => rfl
  | cons y ys ih =>
    unfold insertSorted
    split
    · simp [ih]
    · simp

theorem pySorted_length (l : List Str) : (pySorted l).length = l.length := by
  induction l with
  | nil => rfl
  | cons x xs ih =>
    unfold pySorted
    rw [insertSorted_length, ih]
    rfl

/-! ## Claim theorems for the Deduplicator -/
/-- C1 counterexample: in `exampleABC` the identifier `"b"` is shared by
`A`, `B` and `C`; the group with the fewest input identifiers (ties by
label) among its holders is `A` (sizes 2, 2, 3), yet
`dedup_keep_smallest` removes `"b"` from `A` and keeps it in `B`,
because by the time `"b"` is processed the earlier removal of `"a"` has
shrunk `B`. -/
theorem dedup_ownership_counterexample :
    2 ≤ (groupsContaining exampleABC (chars ("b"))).length
    ∧ pyMinQ exampleABC (groupsContaining exampleABC (chars ("b"))) =
        chars ("A")
    ∧ chars ("b") ∉ lookupD (dedup_keep_smallest exampleABC).1 (chars ("A"))
    ∧ chars ("b") ∈ lookupD (dedup_keep_smallest exampleABC).1 (chars ("B")) := by
  refine ⟨by decide, by decide, by decide, by decide⟩

/-- C1 (amended): for a well-formed mapping, every identifier held by
two or more groups ends up in exactly one group, and that group is one
of the groups that previously held it (the greedy choice by current
size at processing time, which can differ from the global
`(input size, label)` minimum); it is removed from every other group;
an identifier held by exactly one group keeps exactly its holder. -/
theorem dedup_ownership (m : List (Str × List Str)) (hwf : WF m)
    (id : Str) :
    (2 ≤ (groupsContaining m id).length →
      (groupsContaining (dedup_keep_smallest m).1 id).length = 1
      ∧ groupsContaining (dedup_keep_smallest m).1 id ⊆
          groupsContaining m id)
    ∧ ((groupsContaining m id).length = 1 →
      groupsContaining (dedup_keep_smallest m).1 id =
        groupsContaining m id) := by
  rcases dedup_main_for m hwf with ⟨hkeys, hnodup, hsub, hmem, hdis⟩
  have hgcsub : groupsContaining (dedup_keep_smallest m).1 id ⊆
      groupsContaining m id :=
    gc_subset_of_lookup_subset hkeys hwf.1 hsub id
  have hkf : (keysOf (dedup_keep_smallest m).1).Nodup := by
    rw [hkeys]; exact hwf.1
  have hndf : (groupsContaining (dedup_keep_smallest m).1 id).Nodup :=
    groupsContaining_nodup hkf
  have hpos : groupsContaining m id ≠ [] →
      groupsContaining (dedup_keep_smallest m).1 id ≠ [] := by
    intro hne
    have hb : memAny id m = true := memAny_iff_groupsContaining.mpr hne
    have hbf : memAny id (dedup_keep_smallest m).1 = true := by
      rw [hmem id]; exact hb
    exact memAny_iff_groupsContaining.mp hbf
  constructor
  · intro h2
    have hne : groupsContaining m id ≠ [] := by
      intro h
      rw [h] at h2
      simp at h2
    have hnef := hpos hne
    have hlen1 := hdis id
    have hlenpos : 1 ≤ (groupsContaining (dedup_keep_smallest m).1 id).length :=
      List.length_pos.mpr hnef
    exact ⟨by omega, hgcsub⟩
  · intro h1
    rcases List.length_eq_one.mp h1 with ⟨q, hq⟩
    have hne : groupsContaining m id ≠ [] := by
      rw [hq]
      simp
    have hnef := hpos hne
    rw [hq] at hgcsub
    rw [hq]
    exact subset_singleton_eq hgcsub hnef hndf

/-- Witness for `dedup_ownership` at `exampleABC` and its shared
identifier `"a"`. -/
theorem dedup_ownership_w :
    (groupsContaining (dedup_keep_smallest exampleABC).1 (chars ("a"))).length
      = 1 :=
  ((dedup_ownership exampleABC ⟨by decide, by decide⟩ (chars ("a"))).1
    (by decide)).1

/-- C3: one pass of `dedup_keep_smallest` leaves every identifier in at
most one group, and re-running it on its own output returns that output
unchanged (with zero removals). -/
theorem dedup_idempotent (m : List (Str × List Str)) (hwf : WF m) :
    dedup_keep_smallest ((dedup_keep_smallest m).1) =
      ((dedup_keep_smallest m).1, 0)
    ∧ ∀ id, (groupsContaining (dedup_keep_smallest m).1 id).length ≤ 1 := by
  rcases dedup_main_for m hwf with ⟨hkeys, hnodup, _, _, hdis⟩
  have hwf2 : WF (dedup_keep_smallest m).1 :=
    ⟨by rw [hkeys]; exact hwf.1, hnodup⟩
  exact ⟨dedup_of_disjoint _ hwf2 hdis, hdis⟩

/-- Witness for `dedup_idempotent` at a concrete two-group overlap. -/
theorem dedup_idempotent_w :
    dedup_keep_smallest
        ((dedup_keep_smallest
          [(chars ("A"), [chars ("x")]),
           (chars ("B"), [chars ("x"), chars ("y")])]).1) =
      ((dedup_keep_smallest
          [(chars ("A"), [chars ("x")]),
           (chars ("B"), [chars ("x"), chars ("y")])]).1, 0) :=
  (dedup_idempotent
    [(chars ("A"), [chars ("x")]),
     (chars ("B"), [chars ("x"), chars ("y")])] ⟨by decide, by decide⟩).1

/-- C4: `dedup_keep_smallest` conserves identifiers — an identifier
occurs in some output group exactly when it occurs in some input group
(none invented, none dropped). -/
theorem dedup_conserves_identifiers (m : List (Str × List Str))
    (hwf : WF m) (id : Str) :
    memAny id (dedup_keep_smallest m).1 = memAny id m :=
  (dedup_main_for m hwf).2.2.2.1 id

/-- Witness for `dedup_conserves_identifiers` at a concrete overlap. -/
theorem dedup_conserves_identifiers_w :
    memAny (chars ("x"))
        (dedup_keep_smallest
          [(chars ("A"), [chars ("x")]),
           (chars ("B"), [chars ("x"), chars ("y")])]).1 =
      memAny (chars ("x"))
        [(chars ("A"), [chars ("x")]),
         (chars ("B"), [chars ("x"), chars ("y")])] :=
  dedup_conserves_identifiers
    [(chars ("A"), [chars ("x")]),
     (chars ("B"), [chars ("x"), chars ("y")])] ⟨by decide, by decide⟩
    (chars ("x"))

/-- C10: the output of `dedup_keep_smallest` has exactly the input's
group labels (a fully-emptied group stays present), so the before/after
size report has one row per input group, in sorted label order, plus the
`__TOTAL__` row. -/
theorem dedup_preserves_group_labels (m : List (Str × List Str)) :
    keysOf (dedup_keep_smallest m).1 = keysOf m
    ∧ (write_query_sizes_dedup m (dedup_keep_smallest m).1).map
        (fun r => r.query_id) =
      pySorted (keysOf m) ++ [chars ("__TOTAL__")]
    ∧ (write_query_sizes_dedup m (dedup_keep_smallest m).1).length =
        m.length + 1 := by
  refine ⟨?_, ?_, ?_⟩
  · rw [dedup_eq_fold]
    exact dedup_fold_keys (build_rid2qs m) (m, 0)
  · unfold write_query_sizes_dedup
    rw [List.map_append, List.map_map]
    rw [show ((fun r : SizeRow => r.query_id) ∘ fun q =>
      ({ query_id := q
         n_docs_before := (lookupD m q).length
         n_docs_after :=
           (lookupD (dedup_keep_smallest m).1 q).length } : SizeRow)) = id
      from rfl]
    simp
  · unfold write_query_sizes_dedup
    rw [List.length_append, List.length_map, pySorted_length]
    simp [keysOf]

theorem getStore_append_lt (st : List (List Str)) (v : List Str) (j : Nat)
    (h : j < st.length) : getStore (st ++ [v]) j = getStore st j :=
  List.getD_append st [v] [] j h

theorem getStore_set_ne (st : List (List Str)) (i j : Nat) (v : List Str)
    (h : i ≠ j) : getStore (setStore st i v) j = getStore st j := by
  unfold getStore setStore
  simp [List.getD_eq_getElem?_getD, List.getElem?_set_ne h]

theorem heapCopy_fold_frame (input : List (Str × Nat)) :
    ∀ (cur : List (List Str)) (acc : List (Str × Nat)) (j : Nat),
      j < cur.length →
      getStore (input.foldl (fun acc p =>
        (acc.1 ++ [getStore acc.1 p.2], acc.2 ++ [(p.1, acc.1.length)]))
        (cur, acc)).1 j = getStore cur j := by
  induction input with
  | nil => intro cur acc j _; rfl
  | cons p rest ih =>
    intro cur acc j hj
    simp only [List.foldl_cons]
    rw [ih (cur ++ [getStore cur p.2]) _ j
      (by rw [List.length_append]; omega)]
    exact getStore_append_lt cur _ j hj

theorem heapCopy_fold_indices (input : List (Str × Nat)) :
    ∀ (cur : List (List Str)) (acc : List (Str × Nat)) (p : Str × Nat),
      p ∈ (input.foldl (fun acc p =>
        (acc.1 ++ [getStore acc.1 p.2], acc.2 ++ [(p.1, acc.1.length)]))
        (cur, acc)).2 →
      p ∈ acc ∨ cur.length ≤ p.2 := by
  induction input with
  | nil => intro cur acc p hp; exact Or.inl hp
  | cons p0 rest ih =>
    intro cur acc p hp
    simp only [List.foldl_cons] at hp
    rcases ih (cur ++ [getStore cur p0.2]) _ p hp with hi | hge
    · rcases List.mem_append.mp hi with ha | hb
      · exact Or.inl ha
      · right
        have : p = (p0.1, cur.length) := List.mem_singleton.mp hb
        rw [this]
    · right
      rw [List.length_append] at hge
      omega

theorem heapCopy_fold_keys (input : List (Str × Nat)) :
    ∀ (cur : List (List Str)) (acc : List (Str × Nat)),
      (input.foldl (fun acc p =>
        (acc.1 ++ [getStore acc.1 p.2], acc.2 ++ [(p.1, acc.1.length)]))
        (cur, acc)).2.map (fun p => p.1) =
      acc.map (fun p => p.1) ++ input.map (fun p => p.1) := by
  induction input with
  | nil => intro cur acc; simp
  | cons p0 rest ih =>
    intro cur acc
    simp only [List.foldl_cons]
    rw [ih]
    simp

theorem lookupN_mem_snd {out : List (Str × Nat)} {q : Str}
    (h : q ∈ out.map (fun p => p.1)) :
    lookupN out q ∈ out.map (fun p => p.2) := by
  induction out with
  | nil => cases h
  | cons p rest ih =>
    by_cases hpq : p.1 = q
    · simp [lookupN, hpq]
    · simp only [lookupN, if_neg hpq]
      rcases List.mem_cons.mp h with he | hm
      · exact absurd he.symm hpq
      · exact List.mem_cons_of_mem _ (ih hm)

theorem vals_from_appendAssoc (acc : List (Str × List Str)) (k v : Str)
    (P : Str → Prop) (hacc : ∀ p ∈ acc, ∀ x ∈ p.2, P x) (hv : P v) :
    ∀ p ∈ appendAssoc acc k v, ∀ x ∈ p.2, P x := by
  induction acc with
  | nil =>
    intro p hp x hx
    rcases List.mem_singleton.mp hp with he
    rw [he] at hx
    rcases List.mem_singleton.mp hx with hxe
    rw [hxe]
    exact hv
  | cons p0 rest ih =>
    intro p hp x hx
    by_cases hpk : p0.1 = k
    · simp only [appendAssoc, if_pos hpk] at hp
      rcases List.mem_cons.mp hp with he | hm
      · rw [he] at hx
        rcases List.mem_append.mp hx with ha | hb
        · exact hacc p0 (List.mem_cons_self p0 rest) x ha
        · rw [List.mem_singleton.mp hb]
          exact hv
      · exact hacc p (List.mem_cons_of_mem _ hm) x hx
    · simp only [appendAssoc, if_neg hpk] at hp
      rcases List.mem_cons.mp hp with he | hm
      · rw [he] at hx
        exact hacc p0 (List.mem_cons_self p0 rest) x hx
      · exact ih (fun p hp => hacc p (List.mem_cons_of_mem _ hp)) p hm x hx

theorem vals_build_rid2qs_heap (st : List (List Str))
    (input : List (Str × Nat)) :
    ∀ e ∈ build_rid2qs_heap st input, ∀ q ∈ e.2,
      q ∈ input.map (fun p => p.1) := by
  have hgen : ∀ (inp : List (Str × Nat)) (acc : List (Str × List Str)),
      (∀ e ∈ acc, ∀ q ∈ e.2, q ∈ input.map (fun p => p.1)) →
      (∀ p ∈ inp, p.1 ∈ input.map (fun p => p.1)) →
      ∀ e ∈ inp.foldl (fun acc p =>
        (getStore st p.2).foldl (fun a rid => appendAssoc a rid p.1) acc) acc,
        ∀ q ∈ e.2, q ∈ input.map (fun p => p.1) := by
    intro inp
    induction inp with
    | nil => intro acc hacc _ e he; exact hacc e he
    | cons p0 rest ih =>
      intro acc hacc hkeys e he q hq
      simp only [List.foldl_cons] at he
      have hacc2 : ∀ e ∈ (getStore st p0.2).foldl
          (fun a rid => appendAssoc a rid p0.1) acc, ∀ q ∈ e.2,
          q ∈ input.map (fun p => p.1) := by
        have : ∀ (ids : List Str) (a : List (Str × List Str)),
            (∀ e ∈ a, ∀ q ∈ e.2, q ∈ input.map (fun p => p.1)) →
            ∀ e ∈ ids.foldl (fun a rid => appendAssoc a rid p0.1) a,
              ∀ q ∈ e.2, q ∈ input.map (fun p => p.1) := by
          intro ids
          induction ids with
          | nil => intro a ha e he; exact ha e he
          | cons i irest iih =>
            intro a ha e he
            simp only [List.foldl_cons] at he
            exact iih _ (vals_from_appendAssoc a i p0.1 _ ha
              (hkeys p0 (List.mem_cons_self p0 rest))) e he
        exact this (getStore st p0.2) acc hacc
      exact ih _ hacc2
        (fun p hp => hkeys p (List.mem_cons_of_mem _ hp)) e he q hq
  intro e he
  exact hgen input [] (fun e he => (by cases he))
    (fun p hp => List.mem_map_of_mem _ hp) e he

theorem removePassHeap_frame (rid keep : Str) (out : List (Str × Nat))
    (qs : List Str) (N : Nat) (hb : ∀ q ∈ qs, N ≤ lookupN out q) :
    ∀ (s : List (List Str) × Nat) (j : Nat), j < N →
      getStore (removePassHeap rid keep out qs s).1 j = getStore s.1 j := by
  induction qs with
  | nil => intro s j _; rfl
  | cons q qs2 ih =>
    intro s j hj
    have hb2 : ∀ q ∈ qs2, N ≤ lookupN out q :=
      fun q hq => hb q (List.mem_cons_of_mem _ hq)
    simp only [removePassHeap, List.foldl_cons]
    split
    · rw [show (List.foldl _ (setStore s.1 (lookupN out q)
        ((getStore s.1 (lookupN out q)).erase rid), s.2 + 1) qs2) =
        removePassHeap rid keep out qs2 (setStore s.1 (lookupN out q)
          ((getStore s.1 (lookupN out q)).erase rid), s.2 + 1) from rfl,
        ih hb2 _ j hj]
      apply getStore_set_ne
      have := hb q (List.mem_cons_self q qs2)
      omega
    · exact ih hb2 s j hj

theorem dedupStepHeap_frame (out : List (Str × Nat))
    (s : List (List Str) × Nat) (e : Str × List Str) (N : Nat)
    (hb : ∀ q ∈ e.2, N ≤ lookupN out q) (j : Nat) (hj : j < N) :
    getStore (dedupStepHeap out s e).1 j = getStore s.1 j := by
  unfold dedupStepHeap
  split
  · rfl
  · exact removePassHeap_frame e.1 (pyMinQHeap s.1 out e.2) out e.2 N hb
      s j hj

theorem dedupFoldHeap_frame (out : List (Str × Nat))
    (L : List (Str × List Str)) (N : Nat)
    (hb : ∀ e ∈ L, ∀ q ∈ e.2, N ≤ lookupN out q) :
    ∀ (s : List (List Str) × Nat) (j : Nat), j < N →
      getStore ((L.foldl (dedupStepHeap out) s)).1 j = getStore s.1 j := by
  induction L with
  | nil => intro s j _; rfl
  | cons e L2 ih =>
    intro s j hj
    simp only [List.foldl_cons]
    rw [ih (fun e he => hb e (List.mem_cons_of_mem _ he)) _ j hj]
    exact dedupStepHeap_frame out s e N
      (hb e (List.mem_cons_self e L2)) j hj

/-- C9: `dedup_keep_smallest` does not mutate its input. In the heap
model, every pre-existing address (in particular every set of the input
mapping) holds exactly the same set after the call as before, and the
returned mapping consists solely of freshly allocated copies. -/
theorem dedup_heap_no_mutation (st : List (List Str))
    (input : List (Str × Nat)) :
    (∀ j, j < st.length →
      getStore (dedup_keep_smallest_heap st input).1 j = getStore st j)
    ∧ (∀ p ∈ (dedup_keep_smallest_heap st input).2.1, st.length ≤ p.2) := by
  have hidx : ∀ p ∈ (heapCopy st input).2, st.length ≤ p.2 := by
    intro p hp
    rcases heapCopy_fold_indices input st [] p hp with hi | hge
    · cases hi
    · exact hge
  have hkeysc : (heapCopy st input).2.map (fun p => p.1) =
      input.map (fun p => p.1) := by
    have := heapCopy_fold_keys input st []
    simpa using this
  have hb : ∀ e ∈ build_rid2qs_heap st input, ∀ q ∈ e.2,
      st.length ≤ lookupN (heapCopy st input).2 q := by
    intro e he q hq
    have hqk : q ∈ (heapCopy st input).2.map (fun p => p.1) := by
      rw [hkeysc]
      exact vals_build_rid2qs_heap st input e he q hq
    have hmem := lookupN_mem_snd hqk
    rcases List.mem_map.mp hmem with ⟨p, hp, hpe⟩
    rw [← hpe]
    exact hidx p hp
  constructor
  · intro j hj
    show getStore ((build_rid2qs_heap st input).foldl
      (dedupStepHeap (heapCopy st input).2)
      ((heapCopy st input).1, 0)).1 j = getStore st j
    rw [dedupFoldHeap_frame (heapCopy st input).2 (build_rid2qs_heap st input)
      st.length hb ((heapCopy st input).1, 0) j hj]
    exact heapCopy_fold_frame input st [] j hj
  · intro p hp
    exact hidx p hp

/-- Witness for `dedup_heap_no_mutation`: a two-label input sharing one
pre-existing heap cell; address 0 is unchanged by the run. -/
theorem dedup_heap_no_mutation_w :
    getStore (dedup_keep_smallest_heap [[chars ("x")]]
      [(chars ("A"), 0), (chars ("B"), 0)]).1 0 =
    getStore [[chars ("x")]] 0 :=
  (dedup_heap_no_mutation [[chars ("x")]]
    [(chars ("A"), 0), (chars ("B"), 0)]).1 0 (by decide)
